import Mathlib

/-!
Shallow embedding of the duplicate-image detection and deletion core of
`image_deduplication.py` (classes `ImageDeduplicator` and
`ImageDeduplicationController`), together with theorems checking the
natural-language specification against it.

Image paths are an arbitrary type `α` with decidable equality.  Perceptual
fingerprints are modelled as natural numbers: `compute_hash` returns a hex
string which the clusterer immediately converts with `int(h, 16)`, so the
clusterer only ever sees the numeric value.  Hash computation can fail
(`compute_hash` returns `None` on a decode error), hence the hash function is
`α → Option Nat`.
-/

namespace ImgKit

/-- Number of set bits, computed with an explicit structural fuel so that the
kernel can evaluate it (`bin(x).count("1")` in the source).  The fuel is
consumed once per binary digit, so any `fuel ≥ n` gives the true popcount. -/
def popCountFuel : Nat → Nat → Nat
  | 0, _ => 0
  | fuel + 1, n => if n = 0 then 0 else n % 2 + popCountFuel fuel (n / 2)

/-- Hamming distance between two fingerprints, as the source computes it:
`bin(int(h1, 16) ^ int(h2, 16)).count("1")`. -/
def hammingDist (a b : Nat) : Nat :=
  popCountFuel (a ^^^ b) (a ^^^ b)

theorem popCountFuel_eq_zero_iff (fuel n : Nat) (h : n ≤ fuel) :
    popCountFuel fuel n = 0 ↔ n = 0 := by
  induction fuel generalizing n with
  | zero => simp [Nat.le_zero.mp h, popCountFuel]
  | succ fuel ih =>
    rw [popCountFuel]
    by_cases hn : n = 0
    · simp [hn]
    · simp only [hn, if_false, iff_false]
      intro hsum
      have h2 : n % 2 = 0 := by omega
      have h3 : popCountFuel fuel (n / 2) = 0 := by omega
      have hle : n / 2 ≤ fuel := by omega
      have := (ih (n / 2) hle).mp h3
      omega

theorem hammingDist_self (a : Nat) : hammingDist a a = 0 := by
  unfold hammingDist
  rw [Nat.xor_self]
  rfl

theorem hammingDist_eq_zero_iff (a b : Nat) : hammingDist a b = 0 ↔ a = b := by
  unfold hammingDist
  rw [popCountFuel_eq_zero_iff _ _ (Nat.le_refl _), Nat.xor_eq_zero]

/-! ### `ImageDeduplicator.find_duplicate_groups` (hash clustering)

The working state mirrors the Python `hash_groups : dict` with keys in
insertion order: a list of `(representative hash, member list)` pairs. -/

/-- One pass of the inner `for existing_hash in list(hash_groups.keys())` loop:
append `p` to the first group whose representative is within `t` of `h` and
stop (`break`); `none` when no representative matches. -/
def addToFirst (t h : Nat) (p : α) : List (Nat × List α) → Option (List (Nat × List α))
  | [] => none
  | (k, g) :: rest =>
    if hammingDist h k ≤ t then some ((k, g ++ [p]) :: rest)
    else (addToFirst t h p rest).map (fun r => (k, g) :: r)

/-- Body of the `for path in image_paths` loop for one image with hash `h`:
join the first matching group, otherwise open a new group keyed by `h`
(`hash_groups[img_hash].append(path)` on a fresh key). -/
def insertImage (t : Nat) (gs : List (Nat × List α)) (p : α) (h : Nat) :
    List (Nat × List α) :=
  match addToFirst t h p gs with
  | some gs2 => gs2
  | none => gs ++ [(h, [p])]

/-- One image of the outer loop: images whose hash fails to compute are
skipped. -/
def hashStep (hash : α → Option Nat) (t : Nat) (gs : List (Nat × List α)) (p : α) :
    List (Nat × List α) :=
  match hash p with
  | none => gs
  | some h => insertImage t gs p h

/-- `ImageDeduplicator.find_duplicate_groups`: greedy single pass in input
order, then keep only the groups with more than one member
(`len(group) > 1`). -/
def find_duplicate_groups (hash : α → Option Nat) (t : Nat) (paths : List α) :
    List (List α) :=
  ((paths.foldl (hashStep hash t) []).map Prod.snd).filter (fun g => decide (1 < g.length))

/-! ### Spec-side descriptions of the hash clusterer, for comparison

`cluster_minDistSpec` follows the claim's words (join the minimum-distance
representative, ties by representative creation order); `cluster_firstMatchSpec`
follows the amended words (join the first representative, in creation order,
that is within the threshold).  Both are compared against
`find_duplicate_groups` above, which embeds the source. -/

/-- Append `p` to the members of the group at index `i`. -/
def appendAt (p : α) : Nat → List (Nat × List α) → List (Nat × List α)
  | _, [] => []
  | 0, kg :: rest => (kg.1, kg.2 ++ [p]) :: rest
  | i + 1, kg :: rest => kg :: appendAt p i rest

/-- Index and distance of the representative closest to `h` (first among
ties, in representative creation order). -/
def argminIdx (h : Nat) : List (Nat × List α) → Option (Nat × Nat)
  | [] => none
  | kg :: rest =>
    let d := hammingDist h kg.1
    match argminIdx h rest with
    | none => some (0, d)
    | some (i, d2) => if d ≤ d2 then some (0, d) else some (i + 1, d2)

/-- Modelled from the claim's words: each image joins the group of the
minimum-distance representative when that minimum is within the threshold. -/
def cluster_minDistSpec (hash : α → Option Nat) (t : Nat) (paths : List α) :
    List (List α) :=
  let gs := paths.foldl (fun gs p =>
    match hash p with
    | none => gs
    | some h =>
      match argminIdx h gs with
      | none => gs ++ [(h, [p])]
      | some (i, d) => if d ≤ t then appendAt p i gs else gs ++ [(h, [p])]) []
  (gs.map Prod.snd).filter (fun g => decide (1 < g.length))

/-- Index of the first representative (in creation order) within distance
`t` of `h`. -/
def firstMatchIdx (t h : Nat) : List (Nat × List α) → Option Nat
  | [] => none
  | kg :: rest =>
    if hammingDist h kg.1 ≤ t then some 0
    else (firstMatchIdx t h rest).map (fun i => i + 1)

/-- Step of the amended description: join the first representative within
the threshold, otherwise open a new group. -/
def firstMatchStep (hash : α → Option Nat) (t : Nat) (gs : List (Nat × List α))
    (p : α) : List (Nat × List α) :=
  match hash p with
  | none => gs
  | some h =>
    match firstMatchIdx t h gs with
    | none => gs ++ [(h, [p])]
    | some i => appendAt p i gs

/-- Amended description of the hash clusterer: greedy single pass where each
image joins the group of the first representative (in creation order) whose
Hamming distance is within the threshold. -/
def cluster_firstMatchSpec (hash : α → Option Nat) (t : Nat) (paths : List α) :
    List (List α) :=
  ((paths.foldl (firstMatchStep hash t) []).map Prod.snd).filter
    (fun g => decide (1 < g.length))

theorem addToFirst_eq_firstMatchIdx (t h : Nat) (p : α) (gs : List (Nat × List α)) :
    addToFirst t h p gs = (firstMatchIdx t h gs).map (fun i => appendAt p i gs) := by
  induction gs with
  | nil => rfl
  | cons kg rest ih =>
    by_cases hd : hammingDist h kg.1 ≤ t
    · simp [addToFirst, firstMatchIdx, hd, appendAt]
    · simp only [addToFirst, firstMatchIdx, hd, if_false, ih]
      cases firstMatchIdx t h rest with
      | none => rfl
      | some i => simp [appendAt]

theorem hashStep_eq_firstMatchStep (hash : α → Option Nat) (t : Nat) :
    hashStep hash t = firstMatchStep (α := α) hash t := by
  funext gs p
  unfold hashStep firstMatchStep
  cases hash p with
  | none => rfl
  | some h =>
    simp only [insertImage, addToFirst_eq_firstMatchIdx]
    cases firstMatchIdx t h gs with
    | none => rfl
    | some i => rfl

/-! ### Invariants of the hash clusterer state -/

theorem hammingDist_comm (a b : Nat) : hammingDist a b = hammingDist b a := by
  unfold hammingDist
  rw [Nat.xor_comm]

/-- Invariant of the `hash_groups` state: every group is nonempty, its key is
the hash of its first member (the seed), and every member's hash is within
`t` of the key. -/
def GroupsInv (hash : α → Option Nat) (t : Nat) (gs : List (Nat × List α)) : Prop :=
  ∀ kg ∈ gs, (∃ p rest, kg.2 = p :: rest ∧ hash p = some kg.1) ∧
    ∀ p ∈ kg.2, ∃ h, hash p = some h ∧ hammingDist kg.1 h ≤ t

theorem GroupsInv_addToFirst {hash : α → Option Nat} {t : Nat} {p : α} {h : Nat}
    {gs gs2 : List (Nat × List α)} (hinv : GroupsInv hash t gs)
    (hp : hash p = some h) (heq : addToFirst t h p gs = some gs2) :
    GroupsInv hash t gs2 := by
  induction gs generalizing gs2 with
  | nil => simp [addToFirst] at heq
  | cons kg rest ih =>
    by_cases hd : hammingDist h kg.1 ≤ t
    · simp only [addToFirst, hd, if_true, Option.some.injEq] at heq
      subst heq
      intro kg2 hkg2
      rcases List.mem_cons.mp hkg2 with hkg2 | hkg2
      · subst hkg2
        obtain ⟨⟨p0, rest0, hhead, hkey⟩, hmem⟩ := hinv kg (List.mem_cons_self _ _)
        refine ⟨⟨p0, rest0 ++ [p], by simp [hhead], hkey⟩, ?_⟩
        intro q hq
        rcases List.mem_append.mp hq with hq | hq
        · exact hmem q hq
        · rcases List.mem_singleton.mp hq with rfl
          exact ⟨h, hp, by rw [hammingDist_comm]; exact hd⟩
      · exact hinv kg2 (List.mem_cons_of_mem _ hkg2)
    · simp only [addToFirst, hd, if_false, Option.map_eq_some'] at heq
      obtain ⟨r, hr, hcons⟩ := heq
      subst hcons
      have hrest : GroupsInv hash t rest := fun kg2 hkg2 =>
        hinv kg2 (List.mem_cons_of_mem _ hkg2)
      have hrinv := ih hrest hr
      intro kg2 hkg2
      rcases List.mem_cons.mp hkg2 with hkg2 | hkg2
      · subst hkg2
        exact hinv kg (List.mem_cons_self _ _)
      · exact hrinv kg2 hkg2

theorem GroupsInv_insertImage {hash : α → Option Nat} {t : Nat} {p : α} {h : Nat}
    {gs : List (Nat × List α)} (hinv : GroupsInv hash t gs) (hp : hash p = some h) :
    GroupsInv hash t (insertImage t gs p h) := by
  unfold insertImage
  cases heq : addToFirst t h p gs with
  | some gs2 => exact GroupsInv_addToFirst hinv hp heq
  | none =>
    intro kg hkg
    rcases List.mem_append.mp hkg with hkg | hkg
    · exact hinv kg hkg
    · rcases List.mem_singleton.mp hkg with rfl
      refine ⟨⟨p, [], rfl, hp⟩, ?_⟩
      intro q hq
      rcases List.mem_singleton.mp hq with rfl
      exact ⟨h, hp, by rw [hammingDist_self]; exact Nat.zero_le _⟩

theorem GroupsInv_foldl {hash : α → Option Nat} {t : Nat} (paths : List α)
    (gs : List (Nat × List α)) (hinv : GroupsInv hash t gs) :
    GroupsInv hash t (paths.foldl (hashStep hash t) gs) := by
  induction paths generalizing gs with
  | nil => exact hinv
  | cons p rest ih =>
    simp only [List.foldl_cons]
    apply ih
    unfold hashStep
    cases hp : hash p with
    | none => exact hinv
    | some h => exact GroupsInv_insertImage hinv hp

theorem GroupsInv_state {hash : α → Option Nat} {t : Nat} (paths : List α) :
    GroupsInv hash t (paths.foldl (hashStep hash t) []) :=
  GroupsInv_foldl paths [] (by intro kg hkg; simp at hkg)

/-- Every returned group is a state group, so it has a seed whose hash is
the key and every member within `t` of that key. -/
theorem find_duplicate_groups_seed {hash : α → Option Nat} {t : Nat}
    {paths : List α} {g : List α} (hg : g ∈ find_duplicate_groups hash t paths) :
    ∃ k p0 rest, g = p0 :: rest ∧ hash p0 = some k ∧
      ∀ p ∈ g, ∃ h, hash p = some h ∧ hammingDist k h ≤ t := by
  unfold find_duplicate_groups at hg
  have hg2 := List.mem_of_mem_filter hg
  obtain ⟨kg, hkg, hsnd⟩ := List.mem_map.mp hg2
  obtain ⟨⟨p0, rest, hhead, hkey⟩, hmem⟩ :=
    @GroupsInv_state _ hash t paths kg hkg
  subst hsnd
  exact ⟨kg.1, p0, rest, hhead, hkey, hmem⟩

/-! ### Disjointness of hash clusters (for distinct input paths) -/

/-- All members across the state's groups, in group order. -/
def flatMembers (gs : List (Nat × List α)) : List α :=
  (gs.map Prod.snd).flatten

theorem count_flatMembers_addToFirst [DecidableEq α] {t h : Nat} {p : α}
    {gs gs2 : List (Nat × List α)} (heq : addToFirst t h p gs = some gs2) (q : α) :
    (flatMembers gs2).count q = (flatMembers gs).count q + (if p = q then 1 else 0) := by
  induction gs generalizing gs2 with
  | nil => simp [addToFirst] at heq
  | cons kg rest ih =>
    by_cases hd : hammingDist h kg.1 ≤ t
    · simp only [addToFirst, hd, if_true, Option.some.injEq] at heq
      subst heq
      simp only [flatMembers, List.map_cons, List.flatten_cons, List.count_append]
      by_cases hpq : p = q
      · subst hpq
        simp
        omega
      · simp [hpq, List.count_singleton', Ne.symm hpq]
    · simp only [addToFirst, hd, if_false, Option.map_eq_some'] at heq
      obtain ⟨r, hr, hcons⟩ := heq
      subst hcons
      simp only [flatMembers, List.map_cons, List.flatten_cons, List.count_append]
      have := ih hr
      simp only [flatMembers] at this
      omega

theorem count_flatMembers_insertImage [DecidableEq α] {t h : Nat} {p : α}
    {gs : List (Nat × List α)} (q : α) :
    (flatMembers (insertImage t gs p h)).count q =
      (flatMembers gs).count q + (if p = q then 1 else 0) := by
  unfold insertImage
  cases heq : addToFirst t h p gs with
  | some gs2 => exact count_flatMembers_addToFirst heq q
  | none =>
    simp only [flatMembers, List.map_append, List.flatten_append, List.count_append]
    by_cases hpq : p = q
    · subst hpq
      simp
    · simp [List.count_singleton', hpq, Ne.symm hpq]

theorem count_flatMembers_foldl [DecidableEq α] {hash : α → Option Nat} {t : Nat}
    (paths : List α) (gs : List (Nat × List α)) (q : α) :
    (flatMembers (paths.foldl (hashStep hash t) gs)).count q =
      (flatMembers gs).count q +
        (paths.filter (fun p => (hash p).isSome)).count q := by
  induction paths generalizing gs with
  | nil => simp
  | cons p rest ih =>
    simp only [List.foldl_cons]
    rw [ih]
    unfold hashStep
    cases hp : hash p with
    | none =>
      by_cases hpq : p = q
      · subst hpq
        simp [List.filter_cons, hp]
      · simp [List.filter_cons, hp]
    | some h =>
      rw [count_flatMembers_insertImage]
      by_cases hpq : p = q
      · subst hpq
        simp [List.filter_cons, hp, List.count_cons]
        omega
      · simp only [List.filter_cons, hp, Option.isSome_some, if_true]
        rw [List.count_cons_of_ne (Ne.symm hpq)]
        simp [hpq]

theorem count_flatten_filter_le [DecidableEq α] (l : List (List α))
    (pred : List α → Bool) (q : α) :
    ((l.filter pred).flatten).count q ≤ (l.flatten).count q := by
  induction l with
  | nil => simp
  | cons g rest ih =>
    by_cases hp : pred g
    · simp only [List.filter_cons, hp, if_true, List.flatten_cons, List.count_append]
      omega
    · simp only [List.filter_cons, hp]
      simp only [Bool.false_eq_true, if_false, List.flatten_cons, List.count_append]
      omega

/-- For distinct input paths, no path occurs twice across (or inside) the
returned hash groups. -/
theorem find_duplicate_groups_nodup [DecidableEq α] {hash : α → Option Nat}
    {t : Nat} {paths : List α} (hnd : paths.Nodup) :
    (find_duplicate_groups hash t paths).flatten.Nodup := by
  rw [List.nodup_iff_count_le_one]
  intro q
  unfold find_duplicate_groups
  calc (((((paths.foldl (hashStep hash t) []).map Prod.snd).filter
          (fun g => decide (1 < g.length))).flatten).count q)
      ≤ (((paths.foldl (hashStep hash t) []).map Prod.snd).flatten).count q :=
        count_flatten_filter_le _ _ q
    _ = (flatMembers (paths.foldl (hashStep hash t) [])).count q := rfl
    _ = (flatMembers ([] : List (Nat × List α))).count q +
          (paths.filter (fun p => (hash p).isSome)).count q :=
        count_flatMembers_foldl paths [] q
    _ ≤ 1 := by
        simp only [flatMembers, List.map_nil, List.flatten_nil, List.count_nil,
          Nat.zero_add]
        exact List.nodup_iff_count_le_one.mp (hnd.filter _) q

/-- Every returned hash group has at least two members. -/
theorem find_duplicate_groups_size {hash : α → Option Nat} {t : Nat}
    {paths : List α} {g : List α} (hg : g ∈ find_duplicate_groups hash t paths) :
    2 ≤ g.length := by
  unfold find_duplicate_groups at hg
  have := List.of_mem_filter hg
  simp only [decide_eq_true_eq] at this
  omega

/-! ### `ImageDeduplicator.find_duplicate_groups_by_sift` (feature clustering)

The per-pair SIFT matching (`matcher.knnMatch` followed by the ratio test) is
abstracted by `good : α → α → Option Nat`: `good p1 p2 = some n` means the
match computation succeeded with `n` good matches, `none` means it raised
(the `except` branch, which skips the pair).  `min_matches` is a Python
`int`, so it is modelled as an `Int` to keep non-positive values statable.
Besides the groups, the model records a trace of the comparisons performed:
each entry is `(path1, path2, group so far)` at the moment `knnMatch` is
called. -/

/-- The inner `for j, path2 in enumerate(paths[i+1:], i+1)` loop: skip
processed paths, otherwise compare; on a match append `path2` to the group
and mark it processed. -/
def siftInner [DecidableEq α] (mm : Int) (good : α → α → Option Nat) (p1 : α) :
    List α → List α → List α → List α × List α × List (α × α × List α)
  | [], grp, processed => (grp, processed, [])
  | p2 :: rest, grp, processed =>
    if p2 ∈ processed then siftInner mm good p1 rest grp processed
    else
      match good p1 p2 with
      | none =>
        let r := siftInner mm good p1 rest grp processed
        (r.1, r.2.1, (p1, p2, grp) :: r.2.2)
      | some n =>
        if mm ≤ (n : Int) then
          let r := siftInner mm good p1 rest (grp ++ [p2]) (p2 :: processed)
          (r.1, r.2.1, (p1, p2, grp) :: r.2.2)
        else
          let r := siftInner mm good p1 rest grp processed
          (r.1, r.2.1, (p1, p2, grp) :: r.2.2)

/-- The outer `for i, path1 in enumerate(paths)` loop: a processed path never
seeds a scan; a scan that grew past one member is emitted as a group and its
seed marked processed. -/
def siftOuter [DecidableEq α] (mm : Int) (good : α → α → Option Nat) :
    List α → List α → List (List α) × List (α × α × List α)
  | [], _ => ([], [])
  | p1 :: rest, processed =>
    if p1 ∈ processed then siftOuter mm good rest processed
    else
      let r := siftInner mm good p1 rest [p1] processed
      if 1 < r.1.length then
        let s := siftOuter mm good rest (p1 :: r.2.1)
        (r.1 :: s.1, r.2.2 ++ s.2)
      else
        let s := siftOuter mm good rest r.2.1
        (s.1, r.2.2 ++ s.2)

/-- First-occurrence deduplication, as performed by the Python `features`
dict: a repeated path overwrites its entry but keeps its first position, so
`paths = list(features.keys())` lists each path once, in first-seen order. -/
def dedupFirst [DecidableEq α] (l : List α) : List α :=
  l.foldl (fun acc p => if p ∈ acc then acc else acc ++ [p]) []

/-- `find_duplicate_groups_by_sift` with its comparison trace.  `hasDesc p`
models `des is not None` (the path produced a descriptor set). -/
def siftRun [DecidableEq α] (hasDesc : α → Bool) (good : α → α → Option Nat)
    (mm : Int) (image_paths : List α) :
    List (List α) × List (α × α × List α) :=
  siftOuter mm good (dedupFirst (image_paths.filter hasDesc)) []

/-- `ImageDeduplicator.find_duplicate_groups_by_sift`: the groups returned by
the scan. -/
def find_duplicate_groups_by_sift [DecidableEq α] (hasDesc : α → Bool)
    (good : α → α → Option Nat) (mm : Int) (image_paths : List α) :
    List (List α) :=
  (siftRun hasDesc good mm image_paths).1

/-! ### Disjointness and minimum size of SIFT groups -/

theorem siftInner_spec [DecidableEq α] (mm : Int) (good : α → α → Option Nat)
    (p1 : α) (rest : List α) (grp processed : List α) :
    ∃ adds : List α,
      (siftInner mm good p1 rest grp processed).1 = grp ++ adds ∧
      adds.Sublist rest ∧
      (∀ x ∈ adds, x ∉ processed) ∧
      (∀ x, x ∈ (siftInner mm good p1 rest grp processed).2.1 ↔
        x ∈ adds ∨ x ∈ processed) := by
  induction rest generalizing grp processed with
  | nil =>
    refine ⟨[], by simp [siftInner], List.Sublist.refl [], by simp, ?_⟩
    intro x
    simp [siftInner]
  | cons p2 rest ih =>
    by_cases hmem : p2 ∈ processed
    · obtain ⟨adds, h1, h2, h3, h4⟩ := ih grp processed
      exact ⟨adds, by simpa [siftInner, hmem] using h1, h2.cons p2, h3,
        fun x => by simpa [siftInner, hmem] using h4 x⟩
    · cases hg : good p1 p2 with
      | none =>
        obtain ⟨adds, h1, h2, h3, h4⟩ := ih grp processed
        exact ⟨adds, by simpa [siftInner, hmem, hg] using h1, h2.cons p2, h3,
          fun x => by simpa [siftInner, hmem, hg] using h4 x⟩
      | some n =>
        by_cases hc : mm ≤ (n : Int)
        · obtain ⟨adds, h1, h2, h3, h4⟩ := ih (grp ++ [p2]) (p2 :: processed)
          refine ⟨p2 :: adds, ?_, h2.cons₂ p2, ?_, ?_⟩
          · simpa [siftInner, hmem, hg, hc, List.append_assoc] using h1
          · intro x hx
            rcases List.mem_cons.mp hx with rfl | hx
            · exact hmem
            · exact fun hxp => h3 x hx (List.mem_cons_of_mem _ hxp)
          · intro x
            have := h4 x
            simp only [siftInner, hmem, if_false, hg, hc, if_true] at this ⊢
            simp only [List.mem_cons] at this ⊢
            tauto
        · obtain ⟨adds, h1, h2, h3, h4⟩ := ih grp processed
          exact ⟨adds, by simpa [siftInner, hmem, hg, hc] using h1, h2.cons p2, h3,
            fun x => by simpa [siftInner, hmem, hg, hc] using h4 x⟩

theorem siftOuter_spec [DecidableEq α] (mm : Int) (good : α → α → Option Nat)
    (l : List α) (processed : List α) (hnd : l.Nodup) :
    (siftOuter mm good l processed).1.flatten.Nodup ∧
    (∀ x ∈ (siftOuter mm good l processed).1.flatten, x ∈ l ∧ x ∉ processed) ∧
    (∀ g ∈ (siftOuter mm good l processed).1, 2 ≤ g.length) := by
  induction l generalizing processed with
  | nil => simp [siftOuter]
  | cons p1 rest ih =>
    have hndr : rest.Nodup := hnd.of_cons
    have hp1r : p1 ∉ rest := (List.nodup_cons.mp hnd).1
    by_cases hmem : p1 ∈ processed
    · obtain ⟨ih1, ih2, ih3⟩ := ih processed hndr
      refine ⟨by simpa [siftOuter, hmem] using ih1, ?_, ?_⟩
      · intro x hx
        rw [show siftOuter mm good (p1 :: rest) processed =
          siftOuter mm good rest processed by simp [siftOuter, hmem]] at hx
        exact ⟨List.mem_cons_of_mem _ (ih2 x hx).1, (ih2 x hx).2⟩
      · intro g hg
        rw [show siftOuter mm good (p1 :: rest) processed =
          siftOuter mm good rest processed by simp [siftOuter, hmem]] at hg
        exact ih3 g hg
    · obtain ⟨adds, hgrp, hsub, hfresh, hpr⟩ :=
        siftInner_spec mm good p1 rest [p1] processed
      have haddsub : ∀ x ∈ adds, x ∈ rest := fun x hx => hsub.subset hx
      by_cases hlen : 1 < (siftInner mm good p1 rest [p1] processed).1.length
      · have houter : siftOuter mm good (p1 :: rest) processed =
            ((siftInner mm good p1 rest [p1] processed).1 ::
              (siftOuter mm good rest
                (p1 :: (siftInner mm good p1 rest [p1] processed).2.1)).1,
             (siftInner mm good p1 rest [p1] processed).2.2 ++
              (siftOuter mm good rest
                (p1 :: (siftInner mm good p1 rest [p1] processed).2.1)).2) := by
          simp [siftOuter, hmem, hlen]
        obtain ⟨ih1, ih2, ih3⟩ :=
          ih (p1 :: (siftInner mm good p1 rest [p1] processed).2.1) hndr
        have hgnd : (p1 :: adds).Nodup := by
          rw [List.nodup_cons]
          exact ⟨fun hx => hp1r (haddsub p1 hx), hsub.nodup hndr⟩
        refine ⟨?_, ?_, ?_⟩
        · rw [houter]
          simp only [List.flatten_cons]
          rw [hgrp, List.nodup_append]
          refine ⟨by simpa using hgnd, ih1, ?_⟩
          intro a ha hb
          have h2 := (ih2 a hb).2
          simp only [List.mem_cons, not_or] at h2
          rcases List.mem_append.mp ha with ha2 | ha2
          · rcases List.mem_singleton.mp ha2 with rfl
            exact h2.1 rfl
          · exact h2.2 ((hpr a).mpr (Or.inl ha2))
        · intro x hx
          rw [houter] at hx
          simp only [List.flatten_cons, List.mem_append] at hx
          rcases hx with hx | hx
          · rw [hgrp] at hx
            rcases List.mem_append.mp hx with hx | hx
            · rcases List.mem_singleton.mp hx with rfl
              exact ⟨List.mem_cons_self _ _, hmem⟩
            · exact ⟨List.mem_cons_of_mem _ (haddsub x hx), hfresh x hx⟩
          · obtain ⟨hxl, hxp⟩ := ih2 x hx
            simp only [List.mem_cons, not_or] at hxp
            refine ⟨List.mem_cons_of_mem _ hxl, fun hxproc => hxp.2 ?_⟩
            exact (hpr x).mpr (Or.inr hxproc)
        · intro g hg
          rw [houter] at hg
          rcases List.mem_cons.mp hg with rfl | hg
          · omega
          · exact ih3 g hg
      · have hadds : adds = [] := by
          rw [hgrp] at hlen
          simp only [List.length_append, List.length_singleton] at hlen
          have : adds.length = 0 := by omega
          exact List.eq_nil_of_length_eq_zero this
        have houter : (siftOuter mm good (p1 :: rest) processed).1 =
            (siftOuter mm good rest
              (siftInner mm good p1 rest [p1] processed).2.1).1 := by
          simp [siftOuter, hmem, hlen]
        obtain ⟨ih1, ih2, ih3⟩ :=
          ih (siftInner mm good p1 rest [p1] processed).2.1 hndr
        refine ⟨by rw [houter]; exact ih1, ?_, ?_⟩
        · intro x hx
          rw [houter] at hx
          obtain ⟨hxl, hxp⟩ := ih2 x hx
          refine ⟨List.mem_cons_of_mem _ hxl, fun hxproc => hxp ?_⟩
          exact (hpr x).mpr (Or.inr hxproc)
        · intro g hg
          rw [houter] at hg
          exact ih3 g hg

theorem dedupFirst_go_nodup [DecidableEq α] (l acc : List α) (hacc : acc.Nodup) :
    (l.foldl (fun acc p => if p ∈ acc then acc else acc ++ [p]) acc).Nodup := by
  induction l generalizing acc with
  | nil => exact hacc
  | cons p rest ih =>
    simp only [List.foldl_cons]
    by_cases hp : p ∈ acc
    · simp only [hp, if_true]
      exact ih _ hacc
    · simp only [hp, if_false]
      refine ih _ ?_
      rw [List.nodup_append]
      exact ⟨hacc, List.nodup_singleton p,
        fun a ha hb => hp ((List.mem_singleton.mp hb) ▸ ha)⟩

theorem dedupFirst_nodup [DecidableEq α] (l : List α) : (dedupFirst l).Nodup :=
  dedupFirst_go_nodup l [] List.nodup_nil

/-- SIFT grouping never repeats a path across or inside groups, for any
input (the `features` dict deduplicates repeated paths), and every returned
group has at least two members. -/
theorem find_duplicate_groups_by_sift_ok [DecidableEq α] (hasDesc : α → Bool)
    (good : α → α → Option Nat) (mm : Int) (image_paths : List α) :
    (find_duplicate_groups_by_sift hasDesc good mm image_paths).flatten.Nodup ∧
    ∀ g ∈ find_duplicate_groups_by_sift hasDesc good mm image_paths,
      2 ≤ g.length := by
  obtain ⟨h1, _, h3⟩ := siftOuter_spec mm good
    (dedupFirst (image_paths.filter hasDesc)) []
    (dedupFirst_nodup _)
  exact ⟨h1, h3⟩

/-! ### Non-positive `min_matches` -/

theorem siftInner_nonpos [DecidableEq α] {mm : Int} (hmm : mm ≤ 0)
    (good : α → α → Option Nat) (p1 : α) (rest grp processed : List α) :
    siftInner mm good p1 rest grp processed =
      siftInner 0 good p1 rest grp processed := by
  induction rest generalizing grp processed with
  | nil => rfl
  | cons p2 rest ih =>
    simp only [siftInner]
    by_cases hmem : p2 ∈ processed
    · simp [hmem, ih]
    · simp only [hmem, if_false]
      cases hg : good p1 p2 with
      | none => simp [ih]
      | some n =>
        have h1 : mm ≤ (n : Int) := le_trans hmm (Int.natCast_nonneg n)
        have h2 : (0 : Int) ≤ (n : Int) := Int.natCast_nonneg n
        simp [h1, h2, ih]

theorem siftOuter_nonpos [DecidableEq α] {mm : Int} (hmm : mm ≤ 0)
    (good : α → α → Option Nat) (l processed : List α) :
    siftOuter mm good l processed = siftOuter 0 good l processed := by
  induction l generalizing processed with
  | nil => rfl
  | cons p1 rest ih =>
    simp only [siftOuter]
    by_cases hmem : p1 ∈ processed
    · simp [hmem, ih]
    · simp only [hmem, if_false]
      rw [siftInner_nonpos hmm]
      by_cases hlen : 1 < (siftInner 0 good p1 rest [p1] processed).1.length
      · simp [hlen, ih]
      · simp [hlen, ih]

/-! ### `ImageDeduplicationController.on_selection_changed` (toggle guard)

A `Selection` over one duplicate group is the list of keep flags of the
group's children, in child order.  A user toggle first mutates the flag at
index `i` (Qt applies the check-state change before `itemChanged` fires);
the handler then counts the checked children and, when none is left, checks
the toggled item back and warns.  The returned Bool is whether the warning
(`InvariantViolation`) was raised. -/

def on_selection_changed (sel : List Bool) (i : Nat) (keep : Bool) :
    List Bool × Bool :=
  if (sel.set i keep).count true = 0 then ((sel.set i keep).set i true, true)
  else (sel.set i keep, false)

theorem set_getElem_self_eq (l : List Bool) (i : Nat) (h : i < l.length) :
    l.set i l[i] = l := by
  apply List.ext_getElem
  · simp
  · intro n h1 h2
    by_cases hn : i = n
    · subst hn
      exact List.getElem_set_self (by simpa using h1)
    · exact List.getElem_set_ne hn (by simpa using h1)

/-! ### `ImageDeduplicationController.auto_select_files`

For one duplicate group, the source collects `(j, size, mtime)` for every
child `j`, sorts descending by the key `(size, mtime)` (Python's stable
sort with `reverse=True`), checks the child of the first tuple and unchecks
every other child.  `sortDesc` below is a stable descending insertion sort —
extensionally equal to Python's stable sort for this key. -/

/-- Python tuple comparison `(size1, mtime1) <= (size2, mtime2)`. -/
def keyLeB (a b : Nat × Nat) : Bool :=
  decide (a.1 < b.1) || (decide (a.1 = b.1) && decide (a.2 ≤ b.2))

/-- Insert into a descending-sorted list, before the first element with a
key not above its own (so earlier-index elements stay first among ties). -/
def insertDesc (a : Nat × Nat × Nat) :
    List (Nat × Nat × Nat) → List (Nat × Nat × Nat)
  | [] => [a]
  | b :: l => if keyLeB b.2 a.2 then a :: b :: l else b :: insertDesc a l

/-- Stable descending sort by `(size, mtime)`. -/
def sortDesc : List (Nat × Nat × Nat) → List (Nat × Nat × Nat)
  | [] => []
  | a :: l => insertDesc a (sortDesc l)

/-- `for j in range(childCount)` tagging each `(size, mtime)` with its child
index. -/
def idxFrom (i : Nat) : List (Nat × Nat) → List (Nat × Nat × Nat)
  | [] => []
  | a :: l => (i, a) :: idxFrom (i + 1) l

/-- `ImageDeduplicationController.auto_select_files` for one group: `info`
lists each child's `(size, mtime)`; the result lists each child's final
check state. -/
def auto_select_files (info : List (Nat × Nat)) : List Bool :=
  match sortDesc (idxFrom 0 info) with
  | [] => []
  | best :: _ => (List.range info.length).map (fun j => decide (j = best.1))

theorem keyLeB_iff (a b : Nat × Nat) :
    keyLeB a b = true ↔ a.1 < b.1 ∨ (a.1 = b.1 ∧ a.2 ≤ b.2) := by
  simp [keyLeB]

theorem keyLeB_refl (a : Nat × Nat) : keyLeB a a = true := by
  rw [keyLeB_iff]
  omega

theorem keyLeB_total {a b : Nat × Nat} (h : ¬keyLeB a b = true) :
    keyLeB b a = true := by
  rw [keyLeB_iff] at h ⊢
  omega

theorem keyLeB_trans {a b c : Nat × Nat} (h1 : keyLeB a b = true)
    (h2 : keyLeB b c = true) : keyLeB a c = true := by
  rw [keyLeB_iff] at h1 h2 ⊢
  omega

theorem length_insertDesc (a : Nat × Nat × Nat) (l : List (Nat × Nat × Nat)) :
    (insertDesc a l).length = l.length + 1 := by
  induction l with
  | nil => rfl
  | cons b l ih =>
    by_cases h : keyLeB b.2 a.2
    · simp [insertDesc, h]
    · simp [insertDesc, h, ih]

theorem length_sortDesc (l : List (Nat × Nat × Nat)) :
    (sortDesc l).length = l.length := by
  induction l with
  | nil => rfl
  | cons a l ih => simp [sortDesc, length_insertDesc, ih]

theorem mem_insertDesc {x a : Nat × Nat × Nat} {l : List (Nat × Nat × Nat)} :
    x ∈ insertDesc a l ↔ x = a ∨ x ∈ l := by
  induction l with
  | nil => simp [insertDesc]
  | cons b l ih =>
    by_cases h : keyLeB b.2 a.2
    · simp [insertDesc, h]
    · rw [insertDesc, if_neg h]
      simp only [List.mem_cons, ih]
      tauto

theorem mem_sortDesc {x : Nat × Nat × Nat} {l : List (Nat × Nat × Nat)} :
    x ∈ sortDesc l ↔ x ∈ l := by
  induction l with
  | nil => simp [sortDesc]
  | cons a l ih =>
    simp only [sortDesc, mem_insertDesc, List.mem_cons, ih]

theorem sortDesc_head_max (l : List (Nat × Nat × Nat)) (b : Nat × Nat × Nat)
    (t : List (Nat × Nat × Nat)) (hsort : sortDesc l = b :: t) :
    ∀ x ∈ l, keyLeB x.2 b.2 = true := by
  induction l generalizing b t with
  | nil => simp [sortDesc] at hsort
  | cons a l ih =>
    simp only [sortDesc] at hsort
    cases hsl : sortDesc l with
    | nil =>
      have hlen : l.length = 0 := by
        have := length_sortDesc l
        rw [hsl] at this
        simpa using this.symm
      rcases List.eq_nil_of_length_eq_zero hlen with rfl
      rw [hsl] at hsort
      simp only [insertDesc, List.cons.injEq] at hsort
      intro x hx
      rcases List.mem_singleton.mp hx with rfl
      rw [hsort.1]
      exact keyLeB_refl _
    | cons c t2 =>
      rw [hsl] at hsort
      by_cases hca : keyLeB c.2 a.2
      · simp only [insertDesc, hca, if_true, List.cons.injEq] at hsort
        intro x hx
        rcases List.mem_cons.mp hx with rfl | hx
        · rw [← hsort.1]
          exact keyLeB_refl _
        · exact hsort.1 ▸ keyLeB_trans (ih c t2 hsl x hx) hca
      · rw [insertDesc, if_neg hca] at hsort
        simp only [List.cons.injEq] at hsort
        intro x hx
        rcases List.mem_cons.mp hx with rfl | hx
        · exact hsort.1 ▸ keyLeB_total hca
        · exact hsort.1 ▸ ih c t2 hsl x hx

theorem mem_idxFrom {x : Nat × Nat × Nat} {i : Nat} {l : List (Nat × Nat)} :
    x ∈ idxFrom i l ↔ ∃ k, ∃ hk : k < l.length, x = (i + k, l[k]) := by
  induction l generalizing i with
  | nil => simp [idxFrom]
  | cons a l ih =>
    simp only [idxFrom, List.mem_cons, ih]
    constructor
    · rintro (rfl | ⟨k, hk, rfl⟩)
      · exact ⟨0, by simp, by simp⟩
      · exact ⟨k + 1, by simpa using hk, by simp [Nat.add_assoc, Nat.add_comm 1 k]⟩
    · rintro ⟨k, hk, rfl⟩
      cases k with
      | zero => left; simp
      | succ k =>
        right
        refine ⟨k, by simpa using hk, ?_⟩
        simp [Nat.add_assoc, Nat.add_comm 1 k]

theorem length_idxFrom (i : Nat) (l : List (Nat × Nat)) :
    (idxFrom i l).length = l.length := by
  induction l generalizing i with
  | nil => rfl
  | cons a l ih => simp [idxFrom, ih]

/-! ### `ImageDeduplicationController.export_results` — deletion loop

The injected file-system behaviour for each path: whether the file exists
before the attempt, whether `os.remove` raises, and whether the file still
exists afterwards. -/

structure FileBehavior where
  existsBefore : Bool
  removeRaises : Bool
  existsAfter : Bool

inductive DeleteOutcome
  | deleted
  | notFound
  | failed
deriving DecidableEq

/-- Per-entry classification, exactly as the loop body logs it:
`os.path.exists` false ⇒ not found; `os.remove` raising ⇒ failure;
still existing after the call ⇒ failure; otherwise deleted. -/
def deleteOne (fs : α → FileBehavior) (p : α) : DeleteOutcome :=
  if (fs p).existsBefore then
    if (fs p).removeRaises then DeleteOutcome.failed
    else if (fs p).existsAfter then DeleteOutcome.failed
    else DeleteOutcome.deleted
  else DeleteOutcome.notFound

/-- The `for file_path in files_to_delete` loop of `export_results`: per-entry
outcomes in order, plus the running `deleted_count` and `error_count`. -/
def delete_selected_files (fs : α → FileBehavior) (files : List α) :
    List (α × DeleteOutcome) × Nat × Nat :=
  files.foldl (fun acc p =>
    let o := deleteOne fs p
    (acc.1 ++ [(p, o)],
     acc.2.1 + (if o = DeleteOutcome.deleted then 1 else 0),
     acc.2.2 + (if o = DeleteOutcome.failed then 1 else 0))) ([], 0, 0)

theorem delete_selected_files_go (fs : α → FileBehavior) (files : List α)
    (acc : List (α × DeleteOutcome) × Nat × Nat) :
    files.foldl (fun acc p =>
      let o := deleteOne fs p
      (acc.1 ++ [(p, o)],
       acc.2.1 + (if o = DeleteOutcome.deleted then 1 else 0),
       acc.2.2 + (if o = DeleteOutcome.failed then 1 else 0))) acc =
    (acc.1 ++ files.map (fun p => (p, deleteOne fs p)),
     acc.2.1 + files.countP (fun p => decide (deleteOne fs p = DeleteOutcome.deleted)),
     acc.2.2 + files.countP (fun p => decide (deleteOne fs p = DeleteOutcome.failed))) := by
  induction files generalizing acc with
  | nil => simp
  | cons p rest ih =>
    simp only [List.foldl_cons, ih, List.map_cons, List.countP_cons]
    by_cases hd : deleteOne fs p = DeleteOutcome.deleted
    · simp [hd]
      omega
    · by_cases hf : deleteOne fs p = DeleteOutcome.failed
      · simp [hd, hf]
        omega
      · simp [hd, hf]

/-- Closed form of the deletion loop: every entry is processed, in order,
and the two counters count the per-entry outcomes. -/
theorem delete_selected_files_eq (fs : α → FileBehavior) (files : List α) :
    delete_selected_files fs files =
    (files.map (fun p => (p, deleteOne fs p)),
     files.countP (fun p => decide (deleteOne fs p = DeleteOutcome.deleted)),
     files.countP (fun p => decide (deleteOne fs p = DeleteOutcome.failed))) := by
  unfold delete_selected_files
  rw [delete_selected_files_go]
  simp

/-! ### `ImageDeduplicationController.export_results` — event order

`export_results` writes `duplicates.txt` (every group with all member
paths, then the list of files chosen for deletion), asks for confirmation,
and only then runs the deletion loop.  The model records the externally
visible events in program order. -/

inductive ExportEvent
  | writeAudit (content : String)
  | deleteFile (path : String)
deriving DecidableEq

/-- The exact text written to `duplicates.txt`. -/
def auditText (groups : List (List String)) (files : List String) : String :=
  "重复图片组:\n" ++
  String.join (groups.enum.map (fun gi =>
    "\n组 " ++ toString (gi.1 + 1) ++ ":\n" ++
    String.join (gi.2.map (fun p => "  " ++ p ++ "\n")))) ++
  "\n用户选择删除的文件 (" ++ toString files.length ++ " 个):\n" ++
  String.join (files.map (fun p => "  " ++ p ++ "\n"))

/-- Event trace of `export_results`: nothing happens without duplicate
groups, a chosen directory and a nonempty deletion selection; otherwise the
audit text is written, and the deletion loop (one `os.remove` per still
existing selected file) runs only if the user confirms. -/
def export_results_trace (groups : List (List String))
    (filesToDelete : List String) (dirChosen confirmDelete : Bool)
    (fs : String → FileBehavior) : List ExportEvent :=
  if groups.isEmpty then []
  else if !dirChosen then []
  else if filesToDelete.isEmpty then []
  else ExportEvent.writeAudit (auditText groups filesToDelete) ::
    (if confirmDelete then
      (filesToDelete.filter (fun p => (fs p).existsBefore)).map ExportEvent.deleteFile
     else [])

/-! ## Claim theorems -/

/-- C1 counterexample: with fingerprints 0b0000, 0b1111, 0b1110 and
threshold 3, the code appends the third image to the first group created
(distance 3, the first representative within the threshold), not to the
minimum-distance representative (distance 1, the second one), so the
claimed minimum-distance selection disagrees with
`find_duplicate_groups` at this input. -/
theorem C1_counterexample :
    find_duplicate_groups
        (fun p : Nat => some (if p = 0 then 0 else if p = 1 then 15 else 14))
        3 [0, 1, 2] = [[0, 2]] ∧
    cluster_minDistSpec
        (fun p : Nat => some (if p = 0 then 0 else if p = 1 then 15 else 14))
        3 [0, 1, 2] = [[1, 2]] ∧
    ([[0, 2]] : List (List Nat)) ≠ [[1, 2]] :=
  ⟨by decide, by decide, by decide⟩

/-- C1 (amended): `find_duplicate_groups` processes images in input order
and appends each image to the group of the FIRST representative, in order
of group creation, whose Hamming distance is ≤ threshold (not the
minimum-distance representative); otherwise the image starts a new group
with itself as representative. -/
theorem C1_amended_theorem (hash : α → Option Nat) (t : Nat) (paths : List α) :
    find_duplicate_groups hash t paths = cluster_firstMatchSpec hash t paths := by
  unfold find_duplicate_groups cluster_firstMatchSpec
  rw [hashStep_eq_firstMatchStep]

/-- C2: a check-state mutation that would leave zero keep=true members in
the group is rejected: the handler warns (`InvariantViolation`) and the
resulting selection state equals the state before the attempt. -/
theorem C2_theorem (sel : List Bool) (i : Nat) (keep : Bool)
    (hchange : sel.set i keep ≠ sel)
    (hzero : (sel.set i keep).count true = 0) :
    on_selection_changed sel i keep = (sel, true) := by
  have hi : i < sel.length := by
    by_contra hge
    exact hchange (List.set_eq_of_length_le (Nat.le_of_not_lt hge))
  have hkeep : keep = false := by
    cases keep
    · rfl
    · exfalso
      have hi2 : i < (sel.set i true).length := by simpa using hi
      have hgl : (sel.set i true)[i] = true := List.getElem_set_self hi2
      have hmem : true ∈ sel.set i true := by
        have h0 := List.getElem_mem hi2
        rwa [hgl] at h0
      exact List.count_eq_zero.mp hzero hmem
  subst hkeep
  have hgi : sel[i] = true := by
    cases hb : sel[i]
    · exfalso
      apply hchange
      conv_lhs => rw [← hb]
      exact set_getElem_self_eq sel i hi
    · rfl
  unfold on_selection_changed
  rw [if_pos hzero, List.set_set]
  have hset : sel.set i true = sel := by
    conv_lhs => rw [← hgi]
    exact set_getElem_self_eq sel i hi
  rw [hset]

/-- C2 witness: a single-member group with its only keeper unchecked. -/
theorem C2_witness :
    ([true].set 0 false ≠ [true]) ∧ (([true].set 0 false).count true = 0) ∧
    on_selection_changed [true] 0 false = ([true], true) :=
  ⟨by decide, by decide, C2_theorem [true] 0 false (by decide) (by decide)⟩

/-- C3 counterexample: when the same path occurs twice in the input list,
the hash clusterer appends it twice, so one returned group contains the
same path twice — the claimed disjointness fails for arbitrary input
lists. -/
theorem C3_counterexample :
    find_duplicate_groups (fun _ : Nat => some 0) 0 [0, 0] = [[0, 0]] ∧
    ¬ (find_duplicate_groups (fun _ : Nat => some 0) 0 [0, 0]).flatten.Nodup :=
  ⟨by decide, by decide⟩

/-- C3 (amended): provided the input paths are pairwise distinct for the
hash method (the SIFT method deduplicates repeated paths internally, so it
needs no such hypothesis), no path occurs twice across or inside the
returned groups; and — for any input, distinctness not required — every
returned group of either method has size ≥ 2. -/
theorem C3_amended_theorem [DecidableEq α] (hash : α → Option Nat) (t : Nat)
    (paths : List α) (hasDesc : α → Bool)
    (good : α → α → Option Nat) (mm : Int) (image_paths : List α) :
    (paths.Nodup → (find_duplicate_groups hash t paths).flatten.Nodup) ∧
    (∀ g ∈ find_duplicate_groups hash t paths, 2 ≤ g.length) ∧
    (find_duplicate_groups_by_sift hasDesc good mm image_paths).flatten.Nodup ∧
    (∀ g ∈ find_duplicate_groups_by_sift hasDesc good mm image_paths,
      2 ≤ g.length) :=
  ⟨fun hnd => find_duplicate_groups_nodup hnd,
   fun _ hg => find_duplicate_groups_size hg,
   (find_duplicate_groups_by_sift_ok hasDesc good mm image_paths).1,
   (find_duplicate_groups_by_sift_ok hasDesc good mm image_paths).2⟩

/-- C3 witness: distinct paths 0, 1 with equal fingerprints (disjointness
and sizes, also under the SIFT method), and the duplicated input `[0, 0]`
for which the size ≥ 2 bound still holds without any distinctness. -/
theorem C3_witness :
    (([0, 1] : List Nat).Nodup →
      (find_duplicate_groups (fun _ : Nat => some 5) 0 [0, 1]).flatten.Nodup) ∧
    (∀ g ∈ find_duplicate_groups (fun _ : Nat => some 5) 0 [0, 1], 2 ≤ g.length) ∧
    (find_duplicate_groups_by_sift (fun _ : Nat => true)
        (fun _ _ => some 7) 5 [0, 1]).flatten.Nodup ∧
    (∀ g ∈ find_duplicate_groups_by_sift (fun _ : Nat => true)
        (fun _ _ => some 7) 5 [0, 1], 2 ≤ g.length) ∧
    (∀ g ∈ find_duplicate_groups (fun _ : Nat => some 5) 0 [0, 0], 2 ≤ g.length) :=
  ⟨(C3_amended_theorem (fun _ : Nat => some 5) 0 [0, 1]
      (fun _ : Nat => true) (fun _ _ => some 7) 5 [0, 1]).1,
   (C3_amended_theorem (fun _ : Nat => some 5) 0 [0, 1]
      (fun _ : Nat => true) (fun _ _ => some 7) 5 [0, 1]).2.1,
   (C3_amended_theorem (fun _ : Nat => some 5) 0 [0, 1]
      (fun _ : Nat => true) (fun _ _ => some 7) 5 [0, 1]).2.2.1,
   (C3_amended_theorem (fun _ : Nat => some 5) 0 [0, 1]
      (fun _ : Nat => true) (fun _ _ => some 7) 5 [0, 1]).2.2.2,
   (C3_amended_theorem (fun _ : Nat => some 5) 0 [0, 0]
      (fun _ : Nat => true) (fun _ _ => some 7) 5 [0, 1]).2.1⟩

/-- C4: on input `[0, 1, 2]` where image 0 matches both later images but 1
and 2 do not match each other's threshold check directly with anything but
0: the first comparison `(0, 1, [0])` places image 1 in image 0's group;
the second trace entry `(0, 2, [0, 1])` shows the later image 2 being
matched against image 0's descriptor set when image 0 already sits in a
group with image 1 — so an already-grouped image is still compared against
by a later image's membership scan — while image 1, once grouped, never
seeds a comparison (no trace entry has it as the left path), and image 2
joins the group through that comparison. -/
theorem C4_theorem :
    find_duplicate_groups_by_sift (fun _ : Nat => true)
        (fun a _ => if a = 0 then some 1 else some 0) 1 [0, 1, 2] = [[0, 1, 2]] ∧
    (siftRun (fun _ : Nat => true)
        (fun a _ => if a = 0 then some 1 else some 0) 1 [0, 1, 2]).2 =
      [(0, 1, [0]), (0, 2, [0, 1])] ∧
    (0, 2, [0, 1]) ∈ (siftRun (fun _ : Nat => true)
        (fun a _ => if a = 0 then some 1 else some 0) 1 [0, 1, 2]).2 ∧
    1 ∉ ((siftRun (fun _ : Nat => true)
        (fun a _ => if a = 0 then some 1 else some 0) 1 [0, 1, 2]).2.map
          (fun e => e.1)) :=
  ⟨by decide, by decide, by decide, by decide⟩

/-- C5 counterexample: `find_duplicate_groups_by_sift` performs no
validation of `min_matches`: called with the non-positive values 0 and -1
it does not fail — it compares pairs (the trace is nonempty) and returns
groups. -/
theorem C5_counterexample :
    find_duplicate_groups_by_sift (fun _ : Nat => true)
        (fun _ _ => some 0) 0 [0, 1] = [[0, 1]] ∧
    (siftRun (fun _ : Nat => true) (fun _ _ => some 0) 0 [0, 1]).2 =
      [(0, 1, [0])] ∧
    find_duplicate_groups_by_sift (fun _ : Nat => true)
        (fun _ _ => some 0) (-1) [0, 1] = [[0, 1]] :=
  ⟨by decide, by decide, by decide⟩

/-- C5 (amended): the code accepts a non-positive `min_matches` and runs
the full clustering with it; since every successful pair comparison yields
a nonnegative good-match count, any `min_matches ≤ 0` behaves exactly like
`min_matches = 0` (every successfully compared pair matches); no error is
raised and work is not prevented. -/
theorem C5_amended_theorem [DecidableEq α] (hasDesc : α → Bool)
    (good : α → α → Option Nat) (mm : Int) (hmm : mm ≤ 0)
    (image_paths : List α) :
    find_duplicate_groups_by_sift hasDesc good mm image_paths =
      find_duplicate_groups_by_sift hasDesc good 0 image_paths := by
  unfold find_duplicate_groups_by_sift siftRun
  rw [siftOuter_nonpos hmm]

/-- C5 witness: `min_matches = -1` on a concrete input. -/
theorem C5_witness :
    ((-1 : Int) ≤ 0) ∧
    find_duplicate_groups_by_sift (fun _ : Nat => true)
        (fun _ _ => some 3) (-1) [0, 1, 2] =
      find_duplicate_groups_by_sift (fun _ : Nat => true)
        (fun _ _ => some 3) 0 [0, 1, 2] :=
  ⟨by decide, C5_amended_theorem (fun _ : Nat => true) (fun _ _ => some 3)
    (-1) (by decide) [0, 1, 2]⟩

/-- C6: at threshold 0 a group only forms among images whose computed hash
values are all equal (membership requires Hamming distance 0 to the
representative, which forces equality), so images with unequal
fingerprints never share a group. -/
theorem C6_theorem (hash : α → Option Nat) (paths : List α) (g : List α)
    (hg : g ∈ find_duplicate_groups hash 0 paths) :
    ∃ v : Nat, ∀ p ∈ g, hash p = some v := by
  obtain ⟨k, p0, rest, hge, hk, hmem⟩ := find_duplicate_groups_seed hg
  refine ⟨k, fun p hp => ?_⟩
  obtain ⟨h, hph, hd⟩ := hmem p hp
  have hzero : hammingDist k h = 0 := Nat.le_zero.mp hd
  rw [hammingDist_eq_zero_iff] at hzero
  rw [hph, hzero]

/-- C6 witness: two images with identical fingerprints grouped at
threshold 0. -/
theorem C6_witness :
    (([0, 1] : List Nat) ∈ find_duplicate_groups (fun _ : Nat => some 5) 0 [0, 1]) ∧
    ∃ v : Nat, ∀ p ∈ ([0, 1] : List Nat), (fun _ : Nat => some 5) p = some v :=
  ⟨by decide, C6_theorem (fun _ : Nat => some 5) [0, 1] [0, 1] (by decide)⟩

/-- C7: for a nonempty group, `auto_select_files` checks exactly one
member — one whose `(size, mtime)` key is maximal under "size descending,
tie-break mtime descending" — and unchecks every other member. -/
theorem C7_theorem (info : List (Nat × Nat)) (hne : info ≠ []) :
    (auto_select_files info).length = info.length ∧
    (auto_select_files info).count true = 1 ∧
    ∃ j, ∃ hj : j < info.length,
      (auto_select_files info)[j]? = some true ∧
      ∀ k, ∀ hk : k < info.length,
        keyLeB info[k] info[j] = true := by
  cases hsort : sortDesc (idxFrom 0 info) with
  | nil =>
    exfalso
    have h1 := length_sortDesc (idxFrom 0 info)
    rw [hsort, length_idxFrom] at h1
    exact hne (List.eq_nil_of_length_eq_zero h1.symm)
  | cons best t =>
    have hbm : best ∈ idxFrom 0 info := by
      have hmem : best ∈ sortDesc (idxFrom 0 info) := by
        rw [hsort]
        exact List.mem_cons_self _ _
      exact mem_sortDesc.mp hmem
    obtain ⟨kb, hkb, hbe⟩ := mem_idxFrom.mp hbm
    have hb1 : best.1 = kb := by rw [hbe]; simp
    have hb2 : best.2 = info[kb] := by rw [hbe]
    have hjlt : best.1 < info.length := by rw [hb1]; exact hkb
    have hauto : auto_select_files info =
        (List.range info.length).map (fun j => decide (j = best.1)) := by
      unfold auto_select_files
      rw [hsort]
    refine ⟨by rw [hauto]; simp, ?_, ?_⟩
    · rw [hauto, List.count_eq_countP, List.countP_map]
      have hfe : ((fun b => b == true) ∘ (fun j => decide (j = best.1))) =
          fun j => j == best.1 := by
        funext j
        by_cases hj : j = best.1
        · simp [hj]
        · simp [hj]
      rw [hfe]
      exact List.count_eq_one_of_mem (List.nodup_range _) (List.mem_range.mpr hjlt)
    · refine ⟨best.1, hjlt, ?_, ?_⟩
      · rw [hauto, List.getElem?_map, List.getElem?_range hjlt]
        simp
      · intro k hk
        have hxm : ((k, info[k]) : Nat × Nat × Nat) ∈ idxFrom 0 info :=
          mem_idxFrom.mpr ⟨k, hk, by simp⟩
        have hmax := sortDesc_head_max (idxFrom 0 info) best t hsort _ hxm
        rw [hb2] at hmax
        have hsame : info[best.1] = info[kb] := by
          simp only [hb1]
        rw [hsame]
        exact hmax

/-- C7 witness: a 50KB file listed before a 100KB file — only the 100KB
file stays checked. -/
theorem C7_witness :
    (([(51200, 0), (102400, 0)] : List (Nat × Nat)) ≠ []) ∧
    auto_select_files [(51200, 0), (102400, 0)] = [false, true] ∧
    ((auto_select_files [(51200, 0), (102400, 0)]).length = 2 ∧
     (auto_select_files [(51200, 0), (102400, 0)]).count true = 1 ∧
     ∃ j, ∃ hj : j < ([(51200, 0), (102400, 0)] : List (Nat × Nat)).length,
       (auto_select_files [(51200, 0), (102400, 0)])[j]? = some true ∧
       ∀ k, ∀ hk : k < ([(51200, 0), (102400, 0)] : List (Nat × Nat)).length,
         keyLeB (([(51200, 0), (102400, 0)] : List (Nat × Nat))[k])
           (([(51200, 0), (102400, 0)] : List (Nat × Nat))[j]) = true) :=
  ⟨by decide, by decide, C7_theorem [(51200, 0), (102400, 0)] (by decide)⟩

/-- C8: the deletion loop attempts every entry in order (no abort on a
failure), classifies each entry as deleted / not found / failed exactly as
the loop body does, and the reported counters equal the number of deleted
and failed entries; concretely, with three files of which the middle one
fails, the outcomes are deleted, failed, deleted with counts (2, 1) — the
entry after the failure is still attempted. -/
theorem C8_theorem (fs : α → FileBehavior) (files : List α) :
    ((delete_selected_files fs files).1.map Prod.fst = files ∧
     (delete_selected_files fs files).2.1 =
       (delete_selected_files fs files).1.countP
         (fun e => decide (e.2 = DeleteOutcome.deleted)) ∧
     (delete_selected_files fs files).2.2 =
       (delete_selected_files fs files).1.countP
         (fun e => decide (e.2 = DeleteOutcome.failed))) ∧
    delete_selected_files
        (fun p : Nat => if p = 1 then ⟨true, true, true⟩ else ⟨true, false, false⟩)
        [0, 1, 2] =
      ([(0, DeleteOutcome.deleted), (1, DeleteOutcome.failed),
        (2, DeleteOutcome.deleted)], 2, 1) := by
  refine ⟨?_, by decide⟩
  rw [delete_selected_files_eq]
  refine ⟨?_, ?_, ?_⟩
  · rw [List.map_map]
    exact List.map_id files
  · rw [List.countP_map]
    rfl
  · rw [List.countP_map]
    rfl

/-- C9: in every execution of `export_results`, any file deletion event is
strictly preceded by the audit write: when a delete occurs at trace index
`i`, then `i > 0` and index 0 holds the full audit text (every group with
all member paths, then the list of files selected for deletion). -/
theorem C9_theorem (groups : List (List String)) (filesToDelete : List String)
    (dirChosen confirmDelete : Bool) (fs : String → FileBehavior)
    (i : Nat) (p : String)
    (h : (export_results_trace groups filesToDelete dirChosen confirmDelete fs)[i]? =
      some (ExportEvent.deleteFile p)) :
    0 < i ∧
    (export_results_trace groups filesToDelete dirChosen confirmDelete fs)[0]? =
      some (ExportEvent.writeAudit (auditText groups filesToDelete)) := by
  unfold export_results_trace at h ⊢
  by_cases h1 : groups.isEmpty
  · simp [h1] at h
  · by_cases h2 : dirChosen
    · by_cases h3 : filesToDelete.isEmpty
      · simp [h1, h2, h3] at h
      · simp only [h1, h2, h3, Bool.not_true, Bool.false_eq_true, if_false] at h ⊢
        cases i with
        | zero => simp at h
        | succ n => exact ⟨Nat.succ_pos n, by simp⟩
    · simp [h2] at h

/-- C9 witness: one group, one selected file, directory chosen, deletion
confirmed; the delete event sits at index 1, after the audit write at
index 0. -/
theorem C9_witness :
    ((export_results_trace [["a", "b"]] ["b"] true true
        (fun _ => ⟨true, false, false⟩))[1]? =
      some (ExportEvent.deleteFile "b")) ∧
    (0 < 1 ∧
     (export_results_trace [["a", "b"]] ["b"] true true
        (fun _ => ⟨true, false, false⟩))[0]? =
      some (ExportEvent.writeAudit (auditText [["a", "b"]] ["b"]))) :=
  ⟨rfl, C9_theorem [["a", "b"]] ["b"] true true (fun _ => ⟨true, false, false⟩) 1 "b" rfl⟩

/-- C10: every member of a returned hash group is within the threshold of
the group's seed fingerprint (the first member's hash, which is the
group's key); and on the concrete input with fingerprints 0b00, 0b01,
0b10 at threshold 1 all three images land in one group although the two
non-seed members are at pairwise Hamming distance 2 = 2×threshold >
threshold — within-group similarity holds only towards the seed. -/
theorem C10_theorem (hash : α → Option Nat) (t : Nat) (paths : List α)
    (g : List α) (hg : g ∈ find_duplicate_groups hash t paths) :
    (∃ k p0 rest, g = p0 :: rest ∧ hash p0 = some k ∧
      ∀ p ∈ g, ∃ h, hash p = some h ∧ hammingDist k h ≤ t) ∧
    (find_duplicate_groups (fun p : Nat => some p) 1 [0, 1, 2] = [[0, 1, 2]] ∧
     hammingDist 1 2 = 2 ∧ 1 < 2) :=
  ⟨find_duplicate_groups_seed hg, by decide, by decide, by decide⟩

/-- C10 witness: the group `[0, 1, 2]` produced at threshold 1 from
fingerprints equal to the paths. -/
theorem C10_witness :
    (([0, 1, 2] : List Nat) ∈
      find_duplicate_groups (fun p : Nat => some p) 1 [0, 1, 2]) ∧
    ((∃ k p0 rest, ([0, 1, 2] : List Nat) = p0 :: rest ∧
        (fun p : Nat => some p) p0 = some k ∧
        ∀ p ∈ ([0, 1, 2] : List Nat), ∃ h,
          (fun p : Nat => some p) p = some h ∧ hammingDist k h ≤ 1) ∧
     (find_duplicate_groups (fun p : Nat => some p) 1 [0, 1, 2] = [[0, 1, 2]] ∧
      hammingDist 1 2 = 2 ∧ 1 < 2)) :=
  ⟨by decide, C10_theorem (fun p : Nat => some p) 1 [0, 1, 2] [0, 1, 2] (by decide)⟩

end ImgKit
